import Mathlib

/-!
# Verification of the normal-parameter converter of ep-stan

Shallow embedding over exact rational arithmetic of `invert_normal_params`
from `dep/util.py` (conversion between moment parameters `(S, m)` and
natural parameters `(Q, r)` of a multivariate normal distribution by
Cholesky factorization, triangular solves and positive-definite inverse),
together with the prior constructors `get_prior` of the experiment models
`m2` and `m4b`.

NumPy arrays are modelled as a matrix of values together with the two
contiguity flags (`C_CONTIGUOUS`, `F_CONTIGUOUS`); `ndarray.flags.farray`
is `F_CONTIGUOUS && !C_CONTIGUOUS` for behaved two-dimensional arrays,
which is the flag the source inspects.  The LAPACK routines `dpotrf`
(reached through `scipy.linalg.cho_factor`), `dpotrs`
(`scipy.linalg.cho_solve`) and `dpotri` are embedded by their defining
algorithms: column-by-column Cholesky factorization, forward and backward
substitution, and triangular inversion followed by the product
`inv(U) * inv(U)^T`, each filling exactly the triangle the real routine
addresses.  Exact rational square roots play the role of floating-point
square roots; a factorization step fails when its pivot is not positive
(the `LinAlgError` case of the source) or when the pivot has no rational
square root (an artefact of exact arithmetic; every theorem below is
conditioned on, or instantiated at, inputs where the factorization
succeeds).
-/

open Matrix

/-- Square rational matrices, the value part of a two-dimensional array. -/
abbrev Mat (n : ℕ) : Type := Matrix (Fin n) (Fin n) ℚ

/-- The indices strictly below `m`, as a finite set of `Fin n`. -/
def below (n m : ℕ) : Finset (Fin n) := Finset.univ.filter (fun k => k.val < m)

/-- The indices strictly above `m`. -/
def above (n m : ℕ) : Finset (Fin n) := Finset.univ.filter (fun k => m < k.val)

theorem mem_below {n m : ℕ} {k : Fin n} : k ∈ below n m ↔ k.val < m := by
  simp [below]

theorem mem_above {n m : ℕ} {k : Fin n} : k ∈ above n m ↔ m < k.val := by
  simp [above]

/-- Integer square-root candidate by linear scan (only its output is ever
checked, never trusted). -/
def natSqrtLin (m : ℕ) : ℕ :=
  (List.range (m + 1)).foldl (fun acc k => if k * k ≤ m then k else acc) 0

/-- The candidate rational square root of `q`. -/
def sqrtQcand (q : ℚ) : ℚ :=
  (natSqrtLin q.num.toNat : ℚ) / (natSqrtLin q.den : ℚ)

/-- Exact rational square root: returns `some s` with `s * s = q` and
`0 ≤ s` when the candidate checks out, `none` otherwise. -/
def sqrtQ (q : ℚ) : Option ℚ :=
  if sqrtQcand q * sqrtQcand q = q ∧ 0 ≤ sqrtQcand q then some (sqrtQcand q)
  else none

/-- The rational square root with junk value `0` on failure. -/
def sqrtOr0 (q : ℚ) : ℚ := (sqrtQ q).getD 0

theorem sqrtQ_spec {q s : ℚ} (h : sqrtQ q = some s) : s * s = q ∧ 0 ≤ s := by
  unfold sqrtQ at h
  split at h
  · cases h
    assumption
  · cases h

theorem sqrtOr0_spec {q : ℚ} (h : (sqrtQ q).isSome = true) :
    sqrtOr0 q * sqrtOr0 q = q ∧ 0 ≤ sqrtOr0 q := by
  rcases Option.isSome_iff_exists.mp h with ⟨s, hs⟩
  have := sqrtQ_spec hs
  simp [sqrtOr0, hs, this]

/-- Column-by-column upper Cholesky factorization (the algorithm of LAPACK
`dpotrf` with `uplo='U'`, reached through `scipy.linalg.cho_factor` at
`dep/util.py:128`), staged by row: `cholUpTo A r` holds the final factor
entries in rows `0 … r-1` and zeros elsewhere.  Only the upper triangle
of `A` is ever read, exactly as in the LAPACK routine. -/
def cholUpTo {n : ℕ} (A : Mat n) : ℕ → Mat n
  | 0 => fun _ _ => 0
  | r + 1 =>
    let P := cholUpTo A r
    fun i j =>
      if i.val = r then
        if j.val < i.val then 0
        else
          let d : ℚ := sqrtOr0 (A i i - ∑ k ∈ below n i.val, P k i * P k i)
          if j = i then d
          else (A i j - ∑ k ∈ below n i.val, P k i * P k j) / d
      else P i j

/-- The upper Cholesky factor of an `n × n` matrix. -/
def chol {n : ℕ} (A : Mat n) : Mat n := cholUpTo A n

theorem cholUpTo_step_ne {n : ℕ} (A : Mat n) {r : ℕ} {i j : Fin n}
    (h : i.val ≠ r) : cholUpTo A (r + 1) i j = cholUpTo A r i j := by
  simp [cholUpTo, h]

theorem cholUpTo_stable {n : ℕ} (A : Mat n) {r s : ℕ} (hrs : r ≤ s)
    {i j : Fin n} (hi : i.val < r) : cholUpTo A s i j = cholUpTo A r i j := by
  induction s, hrs using Nat.le_induction with
  | base => rfl
  | succ s hs ih =>
    rw [cholUpTo_step_ne A (by omega), ih]

theorem chol_eq_stage {n : ℕ} (A : Mat n) (i j : Fin n) :
    chol A i j = cholUpTo A (i.val + 1) i j :=
  cholUpTo_stable A (by omega) (by omega)

theorem cholUpTo_succ_diag {n : ℕ} (A : Mat n) (i : Fin n) :
    cholUpTo A (i.val + 1) i i
      = sqrtOr0 (A i i -
          ∑ k ∈ below n i.val, cholUpTo A i.val k i * cholUpTo A i.val k i) := by
  simp [cholUpTo]

theorem cholUpTo_succ_off {n : ℕ} (A : Mat n) {i j : Fin n} (h : i.val < j.val) :
    cholUpTo A (i.val + 1) i j
      = (A i j - ∑ k ∈ below n i.val, cholUpTo A i.val k i * cholUpTo A i.val k j)
        / sqrtOr0 (A i i -
            ∑ k ∈ below n i.val, cholUpTo A i.val k i * cholUpTo A i.val k i) := by
  have h1 : ¬ j < i := fun hc => absurd (Fin.lt_def.mp hc) (by omega)
  have h2 : j ≠ i := by
    intro he
    rw [he] at h
    exact lt_irrefl _ h
  simp [cholUpTo, h1, h2]

theorem chol_lower_zero {n : ℕ} (A : Mat n) {i j : Fin n}
    (h : j.val < i.val) : chol A i j = 0 := by
  rw [chol_eq_stage]
  have hf : j < i := Fin.lt_def.mpr h
  simp [cholUpTo, hf]

theorem cholUpTo_at_stage {n : ℕ} (A : Mat n) {i : Fin n} {k : Fin n}
    (hk : k.val < i.val) (j : Fin n) : cholUpTo A i.val k j = chol A k j := by
  have h1 : cholUpTo A i.val k j = cholUpTo A (k.val + 1) k j :=
    cholUpTo_stable A (by omega) (by omega)
  have h2 : chol A k j = cholUpTo A (k.val + 1) k j :=
    cholUpTo_stable A (by omega) (by omega)
  rw [h1, h2]

/-- The `i`-th pivot of the factorization: the quantity whose square root
becomes the diagonal entry `U i i`. -/
def cholPiv {n : ℕ} (A : Mat n) (i : Fin n) : ℚ :=
  A i i - ∑ k ∈ below n i.val, chol A k i * chol A k i

theorem chol_diag {n : ℕ} (A : Mat n) (i : Fin n) :
    chol A i i = sqrtOr0 (cholPiv A i) := by
  rw [chol_eq_stage, cholUpTo_succ_diag]
  have hsum : (∑ k ∈ below n i.val, cholUpTo A i.val k i * cholUpTo A i.val k i)
      = ∑ k ∈ below n i.val, chol A k i * chol A k i :=
    Finset.sum_congr rfl fun k hk => by
      simp only [cholUpTo_at_stage A (mem_below.mp hk)]
  rw [hsum]
  rfl

theorem chol_offdiag {n : ℕ} (A : Mat n) {i j : Fin n} (h : i.val < j.val) :
    chol A i j =
      (A i j - ∑ k ∈ below n i.val, chol A k i * chol A k j) / chol A i i := by
  rw [chol_eq_stage, cholUpTo_succ_off A h, chol_diag]
  have hsum1 : (∑ k ∈ below n i.val, cholUpTo A i.val k i * cholUpTo A i.val k j)
      = ∑ k ∈ below n i.val, chol A k i * chol A k j :=
    Finset.sum_congr rfl fun k hk => by
      simp only [cholUpTo_at_stage A (mem_below.mp hk)]
  have hsum2 : (∑ k ∈ below n i.val, cholUpTo A i.val k i * cholUpTo A i.val k i)
      = ∑ k ∈ below n i.val, chol A k i * chol A k i :=
    Finset.sum_congr rfl fun k hk => by
      simp only [cholUpTo_at_stage A (mem_below.mp hk)]
  rw [hsum1, hsum2]
  rfl

/-- Success condition of the factorization: every pivot is positive (the
condition LAPACK `dpotrf` checks; a nonpositive pivot makes
`scipy.linalg.cho_factor` raise `LinAlgError`) and, in this exact-rational
embedding, has a rational square root. -/
def cholOk {n : ℕ} (A : Mat n) : Prop :=
  ∀ i : Fin n, 0 < cholPiv A i ∧ (sqrtQ (cholPiv A i)).isSome = true

instance cholOkDec {n : ℕ} (A : Mat n) : Decidable (cholOk A) :=
  Fintype.decidableForallFintype (α := Fin n)
    (p := fun i => 0 < cholPiv A i ∧ (sqrtQ (cholPiv A i)).isSome = true)

/-- `scipy.linalg.cho_factor(A)` (`dep/util.py:128`): the upper Cholesky
factor on success, `none` for the `LinAlgError` raise. -/
def cho_factor {n : ℕ} (A : Mat n) : Option (Mat n) :=
  if cholOk A then some (chol A) else none

theorem chol_diag_sq {n : ℕ} {A : Mat n} (hok : cholOk A) (i : Fin n) :
    chol A i i * chol A i i = cholPiv A i := by
  rw [chol_diag]
  exact (sqrtOr0_spec (hok i).2).1

theorem chol_diag_pos {n : ℕ} {A : Mat n} (hok : cholOk A) (i : Fin n) :
    0 < chol A i i := by
  have hsq := chol_diag_sq hok i
  have hpos := (hok i).1
  have hnn : 0 ≤ chol A i i := by
    rw [chol_diag]
    exact (sqrtOr0_spec (hok i).2).2
  rcases lt_or_eq_of_le hnn with h | h
  · exact h
  · exfalso
    rw [← h] at hsq
    rw [← hsq] at hpos
    simp at hpos

theorem chol_entry_sum {n : ℕ} {A : Mat n} (hok : cholOk A) {i j : Fin n}
    (hij : i.val ≤ j.val) :
    (∑ k : Fin n, chol A k i * chol A k j) = A i j := by
  have hsplit := Finset.sum_filter_add_sum_filter_not Finset.univ
    (fun k : Fin n => k.val < i.val) (fun k => chol A k i * chol A k j)
  rw [← hsplit]
  have h2 : (∑ k ∈ Finset.univ.filter (fun k : Fin n => ¬ k.val < i.val),
      chol A k i * chol A k j) = chol A i i * chol A i j := by
    refine Finset.sum_eq_single_of_mem i (by simp) ?_
    intro k hkmem hkne
    have hge : ¬ k.val < i.val := (Finset.mem_filter.mp hkmem).2
    have hvne : k.val ≠ i.val := fun he => hkne (Fin.ext he)
    have hlt : i.val < k.val := by omega
    rw [chol_lower_zero A hlt, zero_mul]
  rw [h2]
  have hbelow : (Finset.univ.filter (fun k : Fin n => k.val < i.val))
      = below n i.val := rfl
  rcases eq_or_lt_of_le hij with he | hlt
  · have hej : i = j := Fin.ext he
    subst hej
    rw [hbelow, chol_diag_sq hok i]
    unfold cholPiv
    ring
  · rw [chol_offdiag A hlt]
    have hne : chol A i i ≠ 0 := ne_of_gt (chol_diag_pos hok i)
    rw [mul_comm (chol A i i), div_mul_cancel₀ _ hne, hbelow]
    ring

/-- Correctness of the factorization: on success, `Uᵀ * U` reconstructs the
symmetric input. -/
theorem chol_tmul {n : ℕ} {A : Mat n} (hok : cholOk A) (hsym : Aᵀ = A) :
    (chol A)ᵀ * chol A = A := by
  ext i j
  rw [Matrix.mul_apply]
  simp only [Matrix.transpose_apply]
  rcases le_total i.val j.val with h | h
  · exact chol_entry_sum hok h
  · have hsum : (∑ k : Fin n, chol A k i * chol A k j)
        = ∑ k : Fin n, chol A k j * chol A k i :=
      Finset.sum_congr rfl fun k _ => mul_comm _ _
    rw [hsum, chol_entry_sum hok h]
    rw [← hsym, Matrix.transpose_apply, hsym]

theorem cho_factor_some {n : ℕ} {A U : Mat n} (h : cho_factor A = some U) :
    cholOk A ∧ U = chol A := by
  unfold cho_factor at h
  split at h
  · cases h
    exact ⟨by assumption, rfl⟩
  · cases h

/-- Backward substitution for an upper-triangular system `U x = y`, staged
from the last row: after stage `r` the rows `i` with `n - r ≤ i` hold their
final value.  This is the second triangular solve of LAPACK `dpotrs`
(`scipy.linalg.cho_solve`, `dep/util.py:133`) and the column solve of
`dpotri`. -/
def backAux {n : ℕ} (U : Mat n) (y : Fin n → ℚ) : ℕ → (Fin n → ℚ)
  | 0 => fun _ => 0
  | r + 1 =>
    let x := backAux U y r
    fun i =>
      if i.val + (r + 1) = n then
        (y i - ∑ k ∈ above n i.val, U i k * x k) / U i i
      else x i

/-- The solution of the upper-triangular system `U x = y`. -/
def backSolve {n : ℕ} (U : Mat n) (y : Fin n → ℚ) : Fin n → ℚ := backAux U y n

theorem backAux_step_ne {n : ℕ} (U : Mat n) (y : Fin n → ℚ) {r : ℕ}
    {i : Fin n} (h : i.val + (r + 1) ≠ n) :
    backAux U y (r + 1) i = backAux U y r i := by
  simp [backAux, h]

theorem backAux_stable {n : ℕ} (U : Mat n) (y : Fin n → ℚ) {r s : ℕ}
    (hrs : r ≤ s) {i : Fin n} (hi : n ≤ i.val + r) :
    backAux U y s i = backAux U y r i := by
  induction s, hrs using Nat.le_induction with
  | base => rfl
  | succ s hs ih =>
    rw [backAux_step_ne U y (by omega), ih]

theorem backSolve_eq {n : ℕ} (U : Mat n) (y : Fin n → ℚ) (i : Fin n) :
    backSolve U y i
      = (y i - ∑ k ∈ above n i.val, U i k * backSolve U y k) / U i i := by
  have hlt : i.val < n := i.isLt
  have h1 : backSolve U y i = backAux U y (n - i.val) i :=
    backAux_stable U y (by omega) (by omega)
  have h2 : n - i.val = (n - i.val - 1) + 1 := by omega
  rw [h1, h2]
  simp only [backAux]
  rw [if_pos (by omega)]
  congr 1
  congr 1
  refine Finset.sum_congr rfl fun k hk => ?_
  have hklt := mem_above.mp hk
  have h3 : backAux U y (n - i.val - 1) k = backSolve U y k :=
    (backAux_stable U y (by omega) (by omega)).symm
  rw [h3]

/-- Correctness of backward substitution: for upper-triangular `U` with
nonzero diagonal, `backSolve U y` solves `U x = y`. -/
theorem backSolve_mulVec {n : ℕ} {U : Mat n}
    (hupper : ∀ i j : Fin n, j.val < i.val → U i j = 0)
    (hdiag : ∀ i : Fin n, U i i ≠ 0) (y : Fin n → ℚ) :
    U.mulVec (backSolve U y) = y := by
  funext i
  rw [Matrix.mulVec, Matrix.dotProduct]
  have hsplit := Finset.sum_filter_add_sum_filter_not Finset.univ
    (fun k : Fin n => i.val < k.val) (fun k => U i k * backSolve U y k)
  rw [← hsplit]
  have h2 : (∑ k ∈ Finset.univ.filter (fun k : Fin n => ¬ i.val < k.val),
      U i k * backSolve U y k) = U i i * backSolve U y i := by
    refine Finset.sum_eq_single_of_mem i (by simp) ?_
    intro k hkmem hkne
    have hge : ¬ i.val < k.val := (Finset.mem_filter.mp hkmem).2
    have hvne : k.val ≠ i.val := fun he => hkne (Fin.ext he)
    have hlt : k.val < i.val := by omega
    rw [hupper i k hlt, zero_mul]
  rw [h2, backSolve_eq]
  have habove : (Finset.univ.filter (fun k : Fin n => i.val < k.val))
      = above n i.val := rfl
  rw [mul_comm (U i i), div_mul_cancel₀ _ (hdiag i), habove]
  ring

/-- Forward substitution for a lower-triangular system `L x = y`, staged
from the first row (the first triangular solve of LAPACK `dpotrs`, applied
to `Uᵀ`). -/
def forwAux {n : ℕ} (L : Mat n) (y : Fin n → ℚ) : ℕ → (Fin n → ℚ)
  | 0 => fun _ => 0
  | r + 1 =>
    let x := forwAux L y r
    fun i =>
      if i.val = r then
        (y i - ∑ k ∈ below n i.val, L i k * x k) / L i i
      else x i

/-- The solution of the lower-triangular system `L x = y`. -/
def forwSolve {n : ℕ} (L : Mat n) (y : Fin n → ℚ) : Fin n → ℚ := forwAux L y n

theorem forwAux_step_ne {n : ℕ} (L : Mat n) (y : Fin n → ℚ) {r : ℕ}
    {i : Fin n} (h : i.val ≠ r) :
    forwAux L y (r + 1) i = forwAux L y r i := by
  simp [forwAux, h]

theorem forwAux_stable {n : ℕ} (L : Mat n) (y : Fin n → ℚ) {r s : ℕ}
    (hrs : r ≤ s) {i : Fin n} (hi : i.val < r) :
    forwAux L y s i = forwAux L y r i := by
  induction s, hrs using Nat.le_induction with
  | base => rfl
  | succ s hs ih =>
    rw [forwAux_step_ne L y (by omega), ih]

theorem forwSolve_eq {n : ℕ} (L : Mat n) (y : Fin n → ℚ) (i : Fin n) :
    forwSolve L y i
      = (y i - ∑ k ∈ below n i.val, L i k * forwSolve L y k) / L i i := by
  have h1 : forwSolve L y i = forwAux L y (i.val + 1) i :=
    forwAux_stable L y (by omega) (by omega)
  rw [h1]
  simp only [forwAux, if_true]
  congr 1
  congr 1
  refine Finset.sum_congr rfl fun k hk => ?_
  have hklt := mem_below.mp hk
  have h3 : forwAux L y i.val k = forwAux L y (k.val + 1) k :=
    forwAux_stable L y (by omega) (by omega)
  have h4 : forwSolve L y k = forwAux L y (k.val + 1) k :=
    forwAux_stable L y (by omega) (by omega)
  rw [h3, h4]

/-- Correctness of forward substitution: for lower-triangular `L` with
nonzero diagonal, `forwSolve L y` solves `L x = y`. -/
theorem forwSolve_mulVec {n : ℕ} {L : Mat n}
    (hlower : ∀ i j : Fin n, i.val < j.val → L i j = 0)
    (hdiag : ∀ i : Fin n, L i i ≠ 0) (y : Fin n → ℚ) :
    L.mulVec (forwSolve L y) = y := by
  funext i
  rw [Matrix.mulVec, Matrix.dotProduct]
  have hsplit := Finset.sum_filter_add_sum_filter_not Finset.univ
    (fun k : Fin n => k.val < i.val) (fun k => L i k * forwSolve L y k)
  rw [← hsplit]
  have h2 : (∑ k ∈ Finset.univ.filter (fun k : Fin n => ¬ k.val < i.val),
      L i k * forwSolve L y k) = L i i * forwSolve L y i := by
    refine Finset.sum_eq_single_of_mem i (by simp) ?_
    intro k hkmem hkne
    have hge : ¬ k.val < i.val := (Finset.mem_filter.mp hkmem).2
    have hvne : k.val ≠ i.val := fun he => hkne (Fin.ext he)
    have hlt : i.val < k.val := by omega
    rw [hlower i k hlt, zero_mul]
  rw [h2, forwSolve_eq]
  have hbelow : (Finset.univ.filter (fun k : Fin n => k.val < i.val))
      = below n i.val := rfl
  rw [mul_comm (L i i), div_mul_cancel₀ _ (hdiag i), hbelow]
  ring

/-- `scipy.linalg.cho_solve((U, False), b)` (`dep/util.py:133`): solve
`Uᵀ U x = b` by a forward substitution with `Uᵀ` followed by a backward
substitution with `U`, reading only the upper triangle of the factor. -/
def cho_solve {n : ℕ} (U : Mat n) (b : Fin n → ℚ) : Fin n → ℚ :=
  backSolve U (forwSolve Uᵀ b)

theorem cho_solve_spec {n : ℕ} {U : Mat n}
    (hupper : ∀ i j : Fin n, j.val < i.val → U i j = 0)
    (hdiag : ∀ i : Fin n, U i i ≠ 0) (b : Fin n → ℚ) :
    (Uᵀ * U).mulVec (cho_solve U b) = b := by
  rw [← Matrix.mulVec_mulVec]
  unfold cho_solve
  rw [backSolve_mulVec hupper hdiag]
  have hlower : ∀ i j : Fin n, i.val < j.val → Uᵀ i j = 0 := fun i j h => by
    rw [Matrix.transpose_apply]
    exact hupper j i h
  have hdiagT : ∀ i : Fin n, Uᵀ i i ≠ 0 := fun i => by
    rw [Matrix.transpose_apply]
    exact hdiag i
  exact forwSolve_mulVec hlower hdiagT b

/-- The inverse of an upper-triangular matrix, column by column through
backward substitution against the standard basis (the `dtrtri` step inside
LAPACK `dpotri`). -/
def invUpper {n : ℕ} (U : Mat n) : Mat n :=
  fun i j => backSolve U (fun k => if k = j then 1 else 0) i

theorem invUpper_right {n : ℕ} {U : Mat n}
    (hupper : ∀ i j : Fin n, j.val < i.val → U i j = 0)
    (hdiag : ∀ i : Fin n, U i i ≠ 0) : U * invUpper U = 1 := by
  ext i j
  rw [Matrix.mul_apply, Matrix.one_apply]
  have h := congrFun
    (backSolve_mulVec hupper hdiag (fun k => if k = j then 1 else 0)) i
  rw [Matrix.mulVec, Matrix.dotProduct] at h
  unfold invUpper
  exact h

/-- LAPACK `dpotri` (`dep/util.py:25,134`): from the upper Cholesky factor
`C`, form `inv(C) * inv(C)ᵀ` and write only the upper triangle of the
result, leaving the strict lower triangle of the buffer untouched; the
second component is the `info` status, nonzero when a diagonal entry of
the factor is zero. -/
def dpotri_routine {n : ℕ} (C : Mat n) : Mat n × ℕ :=
  if ∀ i : Fin n, C i i ≠ 0 then
    (fun i j => if i.val ≤ j.val then (invUpper C * (invUpper C)ᵀ) i j else C i j, 0)
  else (C, 1)

/-- Modelled from the spec: `cython_util.copy_triu_to_tril` (imported at
`dep/util.py:22`, called at `dep/util.py:140`) is repository code whose
source file is not under `src/`; per the spec it mirrors the computed
upper triangle into the lower triangle to restore a fully symmetric dense
result. -/
def copy_triu_to_tril {n : ℕ} (M : Mat n) : Mat n :=
  fun i j => if j.val < i.val then M j i else M i j

theorem copy_triu_to_tril_symm {n : ℕ} (M : Mat n) :
    (copy_triu_to_tril M)ᵀ = copy_triu_to_tril M := by
  ext i j
  rw [Matrix.transpose_apply]
  unfold copy_triu_to_tril
  rcases Nat.lt_trichotomy i.val j.val with h | h | h
  · rw [if_pos h, if_neg (show ¬ j.val < i.val by omega)]
  · have hij : i = j := Fin.ext h
    subst hij
    rfl
  · rw [if_neg (show ¬ i.val < j.val by omega), if_pos h]

theorem copy_triu_to_tril_of_symm {n : ℕ} {M W : Mat n} (hW : Wᵀ = W)
    (hup : ∀ i j : Fin n, i.val ≤ j.val → M i j = W i j) :
    copy_triu_to_tril M = W := by
  ext i j
  unfold copy_triu_to_tril
  rcases le_or_lt i.val j.val with h | h
  · rw [if_neg (show ¬ j.val < i.val by omega), hup i j h]
  · rw [if_pos h, hup j i (le_of_lt h)]
    exact (Matrix.transpose_apply W i j).symm.trans (congrFun (congrFun hW i) j)

theorem chol_upper {n : ℕ} (A : Mat n) :
    ∀ i j : Fin n, j.val < i.val → chol A i j = 0 :=
  fun _ _ h => chol_lower_zero A h

/-- Outcome of the inversion pipeline of `invert_normal_params`
(`dep/util.py:126-140`): factorization failure (`LinAlgError` from
`cho_factor`), `dpotri` failure (`LinAlgError` from the `info` check,
after `b` was already solved), or success. -/
inductive CoreOut (n : ℕ) where
  | factorFail : CoreOut n
  | dpotriFail : Option (Fin n → ℚ) → CoreOut n
  | ok : Mat n → Option (Fin n → ℚ) → CoreOut n

/-- The inversion pipeline of `invert_normal_params` on the working matrix
`W` (`dep/util.py:126-140`): factor unless `cho_form` asserts `W` is
already the upper Cholesky factor, solve for `b` against that factor,
invert through `dpotri`, mirror the upper triangle. -/
def invertCore {n : ℕ} (W : Mat n) (b : Option (Fin n → ℚ)) (cho_form : Bool) :
    CoreOut n :=
  match (if cho_form then some W else cho_factor W) with
  | none => CoreOut.factorFail
  | some U =>
    if (dpotri_routine U).2 ≠ 0 then CoreOut.dpotriFail (b.map (cho_solve U))
    else CoreOut.ok (copy_triu_to_tril (dpotri_routine U).1) (b.map (cho_solve U))

theorem invertCore_false_factorFail {n : ℕ} {W : Mat n} {b : Option (Fin n → ℚ)}
    (h : cho_factor W = none) : invertCore W b false = CoreOut.factorFail := by
  simp [invertCore, h]

theorem dpotri_routine_of_diag {n : ℕ} {C : Mat n}
    (hdiag : ∀ i : Fin n, C i i ≠ 0) :
    dpotri_routine C
      = (fun i j => if i.val ≤ j.val then (invUpper C * (invUpper C)ᵀ) i j
          else C i j, 0) := by
  unfold dpotri_routine
  rw [if_pos hdiag]

/-- Evaluation of the pipeline under a successful factorization. -/
theorem invertCore_false_eval {n : ℕ} {W : Mat n} (hok : cholOk W)
    (b : Option (Fin n → ℚ)) :
    invertCore W b false
      = CoreOut.ok
          (copy_triu_to_tril (fun i j =>
            if i.val ≤ j.val then (invUpper (chol W) * (invUpper (chol W))ᵀ) i j
            else chol W i j))
          (b.map (cho_solve (chol W))) := by
  have hdiag : ∀ i : Fin n, chol W i i ≠ 0 :=
    fun i => ne_of_gt (chol_diag_pos hok i)
  unfold invertCore cho_factor
  rw [if_pos hok]
  simp only [Bool.false_eq_true, if_false]
  rw [dpotri_routine_of_diag hdiag]
  simp

/-- On a successful run without `cho_form`, the pipeline computes the
matrix inverse and the linear-system solution. -/
theorem invertCore_ok_spec {n : ℕ} {W : Mat n} {b : Option (Fin n → ℚ)}
    {F : Mat n} {s : Option (Fin n → ℚ)} (hsym : Wᵀ = W)
    (h : invertCore W b false = CoreOut.ok F s) :
    cholOk W ∧ F = W⁻¹ ∧ s = b.map (fun bb => W⁻¹.mulVec bb) ∧
      W * W⁻¹ = 1 ∧ W⁻¹ * W = 1 ∧ (W⁻¹)ᵀ = W⁻¹ := by
  have hok : cholOk W := by
    by_contra hnot
    have hcf : cho_factor W = none := by
      unfold cho_factor
      rw [if_neg hnot]
    rw [invertCore_false_factorFail hcf] at h
    simp at h
  rw [invertCore_false_eval hok b] at h
  injection h with h1 h2
  have hupper := chol_upper W
  have hdiag : ∀ i : Fin n, chol W i i ≠ 0 :=
    fun i => ne_of_gt (chol_diag_pos hok i)
  have hW : (chol W)ᵀ * chol W = W := chol_tmul hok hsym
  set U := chol W with hUdef
  set V := invUpper U with hVdef
  have hUV : U * V = 1 := invUpper_right hupper hdiag
  have hVU : V * U = 1 := (Matrix.mul_eq_one_comm).mp hUV
  have hprod : W * (V * Vᵀ) = 1 := by
    calc W * (V * Vᵀ) = Uᵀ * U * (V * Vᵀ) := by rw [hW]
      _ = Uᵀ * (U * (V * Vᵀ)) := by rw [Matrix.mul_assoc]
      _ = Uᵀ * (U * V * Vᵀ) := by rw [Matrix.mul_assoc]
      _ = Uᵀ * Vᵀ := by rw [hUV, Matrix.one_mul]
      _ = (V * U)ᵀ := (Matrix.transpose_mul V U).symm
      _ = 1 := by rw [hVU, Matrix.transpose_one]
  have hWinv : W⁻¹ = V * Vᵀ := Matrix.inv_eq_right_inv hprod
  have hdet : IsUnit W.det := Matrix.isUnit_det_of_right_inverse hprod
  have hMul : W * W⁻¹ = 1 := Matrix.mul_nonsing_inv W hdet
  have hMul2 : W⁻¹ * W = 1 := Matrix.nonsing_inv_mul W hdet
  have hinvsym : (W⁻¹)ᵀ = W⁻¹ := by
    rw [hWinv, Matrix.transpose_mul, Matrix.transpose_transpose]
  have hsolve : ∀ bb : Fin n → ℚ, cho_solve U bb = W⁻¹.mulVec bb := by
    intro bb
    have hsol : W.mulVec (cho_solve U bb) = bb := by
      rw [← hW]
      exact cho_solve_spec hupper hdiag bb
    calc cho_solve U bb = (1 : Mat n).mulVec (cho_solve U bb) := by
          rw [Matrix.one_mulVec]
      _ = (W⁻¹ * W).mulVec (cho_solve U bb) := by rw [hMul2]
      _ = W⁻¹.mulVec (W.mulVec (cho_solve U bb)) := by
          rw [← Matrix.mulVec_mulVec]
      _ = W⁻¹.mulVec bb := by rw [hsol]
  refine ⟨hok, ?_, ?_, hMul, hMul2, hinvsym⟩
  · rw [← h1]
    refine copy_triu_to_tril_of_symm hinvsym ?_
    intro i j hij
    rw [if_pos hij, hWinv]
  · rw [← h2]
    exact Option.map_congr fun bb _ => hsolve bb

/-- Without `cho_form`, a successful factorization makes the whole
pipeline succeed. -/
theorem invertCore_false_of_cholOk {n : ℕ} {W : Mat n} (hok : cholOk W)
    (b : Option (Fin n → ℚ)) :
    ∃ F s, invertCore W b false = CoreOut.ok F s :=
  ⟨_, _, invertCore_false_eval hok b⟩

/-- Positive definiteness over the rationals: symmetric with positive
quadratic form away from zero. -/
def PosDefQ {n : ℕ} (W : Mat n) : Prop :=
  Wᵀ = W ∧ ∀ x : Fin n → ℚ, x ≠ 0 → 0 < x ⬝ᵥ W.mulVec x

/-- A successful factorization certifies positive definiteness. -/
theorem cholOk_posDefQ {n : ℕ} {W : Mat n} (hsym : Wᵀ = W) (hok : cholOk W) :
    PosDefQ W := by
  refine ⟨hsym, fun x hx => ?_⟩
  have hupper := chol_upper W
  have hdiag : ∀ i : Fin n, chol W i i ≠ 0 :=
    fun i => ne_of_gt (chol_diag_pos hok i)
  have hW : (chol W)ᵀ * chol W = W := chol_tmul hok hsym
  set U := chol W with hUdef
  set V := invUpper U with hVdef
  have hUV : U * V = 1 := invUpper_right hupper hdiag
  have hVU : V * U = 1 := (Matrix.mul_eq_one_comm).mp hUV
  set y := U.mulVec x with hydef
  have hform : x ⬝ᵥ W.mulVec x = y ⬝ᵥ y := by
    rw [← hW, ← Matrix.mulVec_mulVec, Matrix.dotProduct_mulVec,
      Matrix.vecMul_transpose]
  have hy : y ≠ 0 := by
    intro hy0
    apply hx
    have : V.mulVec y = x := by
      rw [hydef, Matrix.mulVec_mulVec, hVU, Matrix.one_mulVec]
    rw [← this, hy0, Matrix.mulVec_zero]
  rw [hform]
  have hnn : 0 ≤ y ⬝ᵥ y :=
    Finset.sum_nonneg fun i _ => mul_self_nonneg (y i)
  rcases lt_or_eq_of_le hnn with h | h
  · exact h
  · exfalso
    apply hy
    funext i
    have hall := (Finset.sum_eq_zero_iff_of_nonneg
      (fun i _ => mul_self_nonneg (y i))).mp h.symm i (Finset.mem_univ i)
    exact mul_self_eq_zero.mp hall

instance matDecEq {n : ℕ} : DecidableEq (Mat n) := fun M N =>
  decidable_of_iff (∀ i j, M i j = N i j) Matrix.ext_iff

/-- A NumPy two-dimensional array: its values together with the
`C_CONTIGUOUS` and `F_CONTIGUOUS` flags.  The source only inspects
`flags.farray`, which for a behaved two-dimensional array is
`F_CONTIGUOUS and not C_CONTIGUOUS`. -/
structure NArr (n : ℕ) where
  data : Mat n
  c_contig : Bool
  f_contig : Bool

instance vecDecEq {n : ℕ} : DecidableEq (Fin n → ℚ) := fun v w =>
  decidable_of_iff (∀ i, v i = w i) funext_iff.symm

instance narrDecEq {n : ℕ} : DecidableEq (NArr n) := fun a b =>
  decidable_of_iff
    (a.data = b.data ∧ a.c_contig = b.c_contig ∧ a.f_contig = b.f_contig)
    (by
      cases a
      cases b
      simp [NArr.mk.injEq])

instance optVecDecEq {n : ℕ} : DecidableEq (Option (Fin n → ℚ))
  | none, none => isTrue rfl
  | none, some _ => isFalse (fun h => Option.noConfusion h)
  | some _, none => isFalse (fun h => Option.noConfusion h)
  | some v, some w =>
    decidable_of_iff (v = w) ⟨congrArg some, Option.some.inj⟩

instance optMatDecEq {n : ℕ} : DecidableEq (Option (Mat n))
  | none, none => isTrue rfl
  | none, some _ => isFalse (fun h => Option.noConfusion h)
  | some _, none => isFalse (fun h => Option.noConfusion h)
  | some v, some w =>
    decidable_of_iff (v = w) ⟨congrArg some, Option.some.inj⟩

/-- `ndarray.flags.farray` (`dep/util.py:111,114`). -/
def NArr.farray {n : ℕ} (a : NArr n) : Bool := a.f_contig && !a.c_contig

/-- `ndarray.T` (`dep/util.py:113`): transposed view; the contiguity flags
swap. -/
def NArr.T {n : ℕ} (a : NArr n) : NArr n :=
  { data := a.dataᵀ, c_contig := a.f_contig, f_contig := a.c_contig }

/-- `A.copy(order='F')` (`dep/util.py:108`): fresh Fortran-ordered buffer;
for `n ≤ 1` the copy is also C-contiguous. -/
def NArr.copyF {n : ℕ} (a : NArr n) : NArr n :=
  { data := a.data, c_contig := decide (n ≤ 1), f_contig := true }

/-- The `out_A` argument (`dep/util.py:84-87,104-110`): `None` (allocate),
`'in_place'` (overwrite `A`), or a caller-supplied buffer
(`np.copyto(out_A, A)`). -/
inductive OutSpec (n : ℕ) where
  | fresh : OutSpec n
  | inPlace : OutSpec n
  | buf : NArr n → OutSpec n
  deriving DecidableEq

/-- The `out_b` argument (`dep/util.py:116-124`); the layout of the
one-dimensional buffer does not influence any value computed. -/
inductive OutSpecV where
  | fresh : OutSpecV
  | inPlace : OutSpecV
  | buf : OutSpecV
  deriving DecidableEq

/-- The errors of `invert_normal_params`: `scipy.linalg.LinAlgError`
(`dep/util.py:128,137`) and `ValueError` (`dep/util.py:115`). -/
inductive IErr where
  | linAlgError : IErr
  | valueError : IErr
  deriving DecidableEq

/-- The returned pair `(out_A, out_b)` or the raised error. -/
inductive Res (n : ℕ) where
  | err : IErr → Res n
  | ok : NArr n → Option (Fin n → ℚ) → Res n

instance resDecEq {n : ℕ} : DecidableEq (Res n)
  | Res.err e1, Res.err e2 =>
    decidable_of_iff (e1 = e2) ⟨congrArg Res.err, fun h => by injection h⟩
  | Res.err _, Res.ok _ _ => isFalse (fun h => Res.noConfusion h)
  | Res.ok _ _, Res.err _ => isFalse (fun h => Res.noConfusion h)
  | Res.ok a1 s1, Res.ok a2 s2 =>
    decidable_of_iff (a1 = a2 ∧ s1 = s2)
      (by simp [Res.ok.injEq])

/-- Full observable outcome of a call: the return value (or raised error),
the final contents of the caller's `A` buffer (`none` when an error path
may leave a partially overwritten `'in_place'` buffer behind), and the
final contents of the caller's `b` buffer. -/
structure InvOut (n : ℕ) where
  res : Res n
  A_final : Option (Mat n)
  b_final : Option (Fin n → ℚ)

instance invOutDecEq {n : ℕ} : DecidableEq (InvOut n) := fun a b =>
  decidable_of_iff
    (a.res = b.res ∧ a.A_final = b.A_final ∧ a.b_final = b.b_final)
    (by
      cases a
      cases b
      simp [InvOut.mk.injEq])

/-- Resolution of the `out_A` directive (`dep/util.py:104-110`): alias the
input, copy it into a fresh F-ordered buffer, or copy the values into the
caller-supplied buffer (which keeps its own layout). -/
def resolveA {n : ℕ} (A : NArr n) : OutSpec n → NArr n
  | OutSpec.inPlace => A
  | OutSpec.fresh => A.copyF
  | OutSpec.buf B => { data := A.data, c_contig := B.c_contig, f_contig := B.f_contig }

/-- The layout step (`dep/util.py:111-115`): if the working array is not
`farray`, replace it by its transposed view (sound only for symmetric
values), and fail with `ValueError` if the view is still not `farray`.
The second component records whether the transposed view is in use. -/
def layoutFix {n : ℕ} (w : NArr n) : Option (NArr n × Bool) :=
  if w.farray then some (w, false)
  else if w.T.farray then some (w.T, true)
  else none

/-- `invert_normal_params(A, b, out_A, out_b, cho_form)`
(`dep/util.py:67-141`): resolve the output placement, fix the layout,
factor (unless `cho_form`), solve for `b`, invert through `dpotri`,
mirror the upper triangle, and report the final contents of the caller's
buffers.  `b = none` models an absent `b`, and then no vector output is
produced. -/
def invert_normal_params {n : ℕ} (A : NArr n) (b : Option (Fin n → ℚ))
    (out_A : OutSpec n) (out_b : OutSpecV) (cho_form : Bool) : InvOut n :=
  match layoutFix (resolveA A out_A) with
  | none => ⟨Res.err IErr.valueError, some A.data, b⟩
  | some (w, tr) =>
    match invertCore w.data b cho_form with
    | CoreOut.factorFail =>
        ⟨Res.err IErr.linAlgError,
         if out_A = OutSpec.inPlace then none else some A.data, b⟩
    | CoreOut.dpotriFail s =>
        ⟨Res.err IErr.linAlgError,
         if out_A = OutSpec.inPlace then none else some A.data,
         if out_b = OutSpecV.inPlace then s else b⟩
    | CoreOut.ok F s =>
        ⟨Res.ok ⟨F, w.c_contig, w.f_contig⟩ s,
         if out_A = OutSpec.inPlace then some (if tr then Fᵀ else F)
         else some A.data,
         if out_b = OutSpecV.inPlace then s else b⟩

theorem resolveA_data {n : ℕ} (A : NArr n) (o : OutSpec n) :
    (resolveA A o).data = A.data := by
  cases o <;> rfl

theorem layoutFix_none_iff {n : ℕ} (w : NArr n) :
    layoutFix w = none ↔ w.c_contig = w.f_contig := by
  unfold layoutFix NArr.farray NArr.T
  cases hc : w.c_contig <;> cases hf : w.f_contig <;> simp [hc, hf]

theorem layoutFix_some_props {n : ℕ} {w v : NArr n} {tr : Bool}
    (h : layoutFix w = some (v, tr)) :
    v.c_contig = false ∧ v.f_contig = true ∧
      (v.data = w.data ∨ v.data = w.dataᵀ) := by
  unfold layoutFix at h
  split_ifs at h with h1 h2
  · injection h with h3
    injection h3 with h4 h5
    subst h4
    simp only [NArr.farray, Bool.and_eq_true, Bool.not_eq_eq_eq_not,
      Bool.not_true] at h1
    exact ⟨h1.2, h1.1, Or.inl rfl⟩
  · injection h with h3
    injection h3 with h4 h5
    subst h4
    simp only [NArr.farray, NArr.T, Bool.and_eq_true, Bool.not_eq_eq_eq_not,
      Bool.not_true] at h2
    exact ⟨h2.2, h2.1, Or.inr rfl⟩

/-- Top-level specification of a successful call without `cho_form`: the
returned matrix is the inverse of the (symmetric) input, in F-order, the
returned vector is the solution of `A x = b`, and the input is invertible. -/
theorem invert_ok_spec {n : ℕ} {A : NArr n} {b : Option (Fin n → ℚ)}
    {out_A : OutSpec n} {out_b : OutSpecV} {R : NArr n} {s : Option (Fin n → ℚ)}
    (hsym : A.dataᵀ = A.data)
    (h : (invert_normal_params A b out_A out_b false).res = Res.ok R s) :
    R.data = A.data⁻¹ ∧ s = b.map (fun bb => A.data⁻¹.mulVec bb) ∧
      A.data * A.data⁻¹ = 1 ∧ A.data⁻¹ * A.data = 1 ∧
      (A.data⁻¹)ᵀ = A.data⁻¹ ∧ R.c_contig = false ∧ R.f_contig = true ∧
      cholOk A.data := by
  rcases hl : layoutFix (resolveA A out_A) with _ | ⟨w, tr⟩
  · simp only [invert_normal_params, hl] at h
    exact Res.noConfusion h
  · have hprops := layoutFix_some_props hl
    have hwdata : w.data = A.data := by
      rcases hprops.2.2 with hd | hd
      · rw [hd, resolveA_data]
      · rw [hd, resolveA_data, hsym]
    rcases hc : invertCore w.data b false with _ | s0 | ⟨F, s0⟩
    · simp only [invert_normal_params, hl, hc] at h
      exact Res.noConfusion h
    · simp only [invert_normal_params, hl, hc] at h
      exact Res.noConfusion h
    · simp only [invert_normal_params, hl, hc, Res.ok.injEq] at h
      obtain ⟨hR, hs⟩ := h
      rw [hwdata] at hc
      obtain ⟨hok, hF, hs0, hm1, hm2, hts⟩ := invertCore_ok_spec hsym hc
      refine ⟨?_, ?_, hm1, hm2, hts, ?_, ?_, hok⟩
      · rw [← hR, ← hF]
      · rw [← hs, hs0]
      · rw [← hR]
        exact hprops.1
      · rw [← hR]
        exact hprops.2.1

/-- Any successful pipeline output has been mirrored by
`copy_triu_to_tril`. -/
theorem invertCore_ok_mirror {n : ℕ} {W : Mat n} {b : Option (Fin n → ℚ)}
    {cf : Bool} {F : Mat n} {s : Option (Fin n → ℚ)}
    (h : invertCore W b cf = CoreOut.ok F s) :
    ∃ M : Mat n, F = copy_triu_to_tril M := by
  unfold invertCore at h
  rcases hf : (if cf then some W else cho_factor W) with _ | U
  · simp only [hf] at h
    exact CoreOut.noConfusion h
  · simp only [hf] at h
    by_cases hi : (dpotri_routine U).2 ≠ 0
    · rw [if_pos hi] at h
      exact CoreOut.noConfusion h
    · rw [if_neg hi] at h
      injection h with h1 h2
      exact ⟨_, h1.symm⟩

/-- Decomposition of any successful top-level call: a working array that
passed the layout check, and a successful pipeline run on its values. -/
theorem invert_ok_core {n : ℕ} {A : NArr n} {b : Option (Fin n → ℚ)}
    {oA : OutSpec n} {oB : OutSpecV} {cf : Bool} {R : NArr n}
    {s : Option (Fin n → ℚ)}
    (h : (invert_normal_params A b oA oB cf).res = Res.ok R s) :
    ∃ w tr, layoutFix (resolveA A oA) = some (w, tr) ∧
      invertCore w.data b cf = CoreOut.ok R.data s ∧
      R.c_contig = w.c_contig ∧ R.f_contig = w.f_contig := by
  rcases hl : layoutFix (resolveA A oA) with _ | ⟨w, tr⟩
  · simp only [invert_normal_params, hl] at h
    exact Res.noConfusion h
  · refine ⟨w, tr, rfl, ?_⟩
    rcases hc : invertCore w.data b cf with _ | s0 | ⟨F, s0⟩
    · simp only [invert_normal_params, hl, hc] at h
      exact Res.noConfusion h
    · simp only [invert_normal_params, hl, hc] at h
      exact Res.noConfusion h
    · simp only [invert_normal_params, hl, hc, Res.ok.injEq] at h
      obtain ⟨hR, hs⟩ := h
      subst hR
      subst hs
      exact ⟨rfl, rfl, rfl⟩

/-- C1: For every symmetric positive-definite matrix `A`, a successful
call to `invert_normal_params` (with `cho_form` unset) returns `out_A`
equal to the matrix inverse of `A` — the inverse in the sense of the
reference (adjugate-based) matrix inverse, to which it therefore agrees
on small concrete matrices — and the returned array is in column-major
(Fortran) order: `F_CONTIGUOUS` set and `C_CONTIGUOUS` clear. -/
theorem C1_out_A_inverse {n : ℕ} (A : NArr n) (b : Option (Fin n → ℚ))
    (oA : OutSpec n) (oB : OutSpecV) (R : NArr n) (s : Option (Fin n → ℚ))
    (hsym : A.dataᵀ = A.data)
    (h : (invert_normal_params A b oA oB false).res = Res.ok R s) :
    R.data = A.data⁻¹ ∧ A.data * A.data⁻¹ = 1 ∧
      R.f_contig = true ∧ R.c_contig = false := by
  obtain ⟨h1, _, h3, _, _, h6, h7, _⟩ := invert_ok_spec hsym h
  exact ⟨h1, h3, h7, h6⟩

/-- Witness for C1 at the concrete input `A = [[4,2],[2,2]]` (C-ordered),
`b = [1,1]`, default output placement. -/
theorem C1_witness :
    ((!![4,2;2,2] : Mat 2)ᵀ = !![4,2;2,2]) ∧
    ((invert_normal_params (n := 2) ⟨!![4,2;2,2], true, false⟩ (some ![1,1])
        OutSpec.fresh OutSpecV.fresh false).res
      = Res.ok ⟨!![1/2,-1/2;-1/2,1], false, true⟩ (some ![0, 1/2])) ∧
    ((⟨!![1/2,-1/2;-1/2,1], false, true⟩ : NArr 2).data
        = (!![4,2;2,2] : Mat 2)⁻¹ ∧
      (!![4,2;2,2] : Mat 2) * (!![4,2;2,2] : Mat 2)⁻¹ = 1 ∧
      (⟨!![1/2,-1/2;-1/2,1], false, true⟩ : NArr 2).f_contig = true ∧
      (⟨!![1/2,-1/2;-1/2,1], false, true⟩ : NArr 2).c_contig = false) :=
  ⟨by with_unfolding_all decide, by with_unfolding_all decide,
    C1_out_A_inverse ⟨!![4,2;2,2], true, false⟩ (some ![1,1])
      OutSpec.fresh OutSpecV.fresh ⟨!![1/2,-1/2;-1/2,1], false, true⟩
      (some ![0, 1/2]) (by with_unfolding_all decide)
      (by with_unfolding_all decide)⟩

/-- C2: For every symmetric positive-definite matrix `A` and matching
vector `b`, a successful call returns `out_b` equal to the solution of
`A·x = b` (that is, `out_b = A⁻¹·b`, computed by a Cholesky-based solve
against the pre-inversion factor); when `b` is not supplied, the returned
`out_b` is `None`. -/
theorem C2_out_b_solve {n : ℕ} (A : NArr n) (b : Option (Fin n → ℚ))
    (oA : OutSpec n) (oB : OutSpecV) (R : NArr n) (s : Option (Fin n → ℚ))
    (hsym : A.dataᵀ = A.data)
    (h : (invert_normal_params A b oA oB false).res = Res.ok R s) :
    s = b.map (fun bb => A.data⁻¹.mulVec bb) ∧
      (∀ bb : Fin n → ℚ, b = some bb →
        A.data.mulVec (A.data⁻¹.mulVec bb) = bb) ∧
      (b = none → s = none) := by
  obtain ⟨_, h2, h3, _, _, _, _, _⟩ := invert_ok_spec hsym h
  refine ⟨h2, fun bb hbb => ?_, fun hb => ?_⟩
  · rw [Matrix.mulVec_mulVec, h3, Matrix.one_mulVec]
  · rw [h2, hb]
    rfl

/-- Witness for C2 at the same concrete input as C1, and additionally at
`b` absent. -/
theorem C2_witness :
    ((!![4,2;2,2] : Mat 2)ᵀ = !![4,2;2,2]) ∧
    ((invert_normal_params (n := 2) ⟨!![4,2;2,2], true, false⟩ (some ![1,1])
        (OutSpec.buf ⟨!![0,0;0,0], false, true⟩) OutSpecV.buf false).res
      = Res.ok ⟨!![1/2,-1/2;-1/2,1], false, true⟩ (some ![0, 1/2])) ∧
    ((some ![0, 1/2] : Option (Fin 2 → ℚ))
        = (some ![1,1] : Option (Fin 2 → ℚ)).map
            (fun bb => (!![4,2;2,2] : Mat 2)⁻¹.mulVec bb) ∧
      (∀ bb : Fin 2 → ℚ, (some ![1,1] : Option (Fin 2 → ℚ)) = some bb →
        (!![4,2;2,2] : Mat 2).mulVec ((!![4,2;2,2] : Mat 2)⁻¹.mulVec bb) = bb) ∧
      ((some ![1,1] : Option (Fin 2 → ℚ)) = none → (some ![0, 1/2] : Option (Fin 2 → ℚ)) = none)) :=
  ⟨by with_unfolding_all decide, by with_unfolding_all decide,
    C2_out_b_solve ⟨!![4,2;2,2], true, false⟩ (some ![1,1])
      (OutSpec.buf ⟨!![0,0;0,0], false, true⟩) OutSpecV.buf
      ⟨!![1/2,-1/2;-1/2,1], false, true⟩ (some ![0, 1/2])
      (by with_unfolding_all decide) (by with_unfolding_all decide)⟩

/-- C3: Round-trip: converting `(A, b)` and then converting the result
again returns exactly the original `(A, b)` in exact arithmetic, whenever
both conversions succeed. -/
theorem C3_roundtrip {n : ℕ} (A : NArr n) (bb : Fin n → ℚ)
    (oA1 oA2 : OutSpec n) (oB1 oB2 : OutSpecV)
    (R1 R2 : NArr n) (s1 s2 : Option (Fin n → ℚ))
    (hsym : A.dataᵀ = A.data)
    (h1 : (invert_normal_params A (some bb) oA1 oB1 false).res = Res.ok R1 s1)
    (h2 : (invert_normal_params R1 s1 oA2 oB2 false).res = Res.ok R2 s2) :
    R2.data = A.data ∧ s2 = some bb := by
  obtain ⟨hd1, hs1, hm1, hm2, hts1, _, _, _⟩ := invert_ok_spec hsym h1
  have hsym1 : R1.dataᵀ = R1.data := by
    rw [hd1]
    exact hts1
  obtain ⟨hd2, hs2, _, _, _, _, _, _⟩ := invert_ok_spec hsym1 h2
  have hdet : IsUnit A.data.det := Matrix.isUnit_det_of_right_inverse hm1
  have hback : R1.data⁻¹ = A.data := by
    rw [hd1]
    exact Matrix.nonsing_inv_nonsing_inv A.data hdet
  constructor
  · rw [hd2, hback]
  · rw [hs2, hs1, hback]
    show some (A.data.mulVec (A.data⁻¹.mulVec bb)) = some bb
    rw [Matrix.mulVec_mulVec, hm1, Matrix.one_mulVec]

/-- Witness for C3 at `A = diag(1, 4)` (C-ordered), `b = [1,2]`: both
conversions succeed with rational Cholesky factors and return the original
pair. -/
theorem C3_witness :
    ((!![1,0;0,4] : Mat 2)ᵀ = !![1,0;0,4]) ∧
    ((invert_normal_params (n := 2) ⟨!![1,0;0,4], true, false⟩ (some ![1,2])
        OutSpec.fresh OutSpecV.fresh false).res
      = Res.ok ⟨!![1,0;0,1/4], false, true⟩ (some ![1, 1/2])) ∧
    ((invert_normal_params (n := 2) ⟨!![1,0;0,1/4], false, true⟩
        (some ![1, 1/2]) OutSpec.fresh OutSpecV.fresh false).res
      = Res.ok ⟨!![1,0;0,4], false, true⟩ (some ![1,2])) ∧
    ((⟨!![1,0;0,4], false, true⟩ : NArr 2).data = (!![1,0;0,4] : Mat 2) ∧
      (some ![1,2] : Option (Fin 2 → ℚ)) = some ![1,2]) :=
  ⟨by with_unfolding_all decide, by with_unfolding_all decide,
    by with_unfolding_all decide,
    C3_roundtrip ⟨!![1,0;0,4], true, false⟩ ![1,2]
      OutSpec.fresh OutSpec.fresh OutSpecV.fresh OutSpecV.fresh
      ⟨!![1,0;0,1/4], false, true⟩ ⟨!![1,0;0,4], false, true⟩
      (some ![1, 1/2]) (some ![1,2])
      (by with_unfolding_all decide) (by with_unfolding_all decide)
      (by with_unfolding_all decide)⟩

/-- C4: For every input on which the call succeeds — any placement, any
`cho_form`, no symmetry assumption on the input — the returned matrix is
exactly symmetric, because the triangle filled by the inversion routine is
mirrored into the other triangle before returning. -/
theorem C4_result_symmetric {n : ℕ} (A : NArr n) (b : Option (Fin n → ℚ))
    (oA : OutSpec n) (oB : OutSpecV) (cf : Bool) (R : NArr n)
    (s : Option (Fin n → ℚ))
    (h : (invert_normal_params A b oA oB cf).res = Res.ok R s) :
    R.dataᵀ = R.data := by
  obtain ⟨w, tr, _, hc, _, _⟩ := invert_ok_core h
  obtain ⟨M, hM⟩ := invertCore_ok_mirror hc
  rw [hM]
  exact copy_triu_to_tril_symm M

/-- Witness for C4, using the `cho_form` entry mode on the factor
`[[2,1],[0,1]]` of `[[4,2],[2,2]]`. -/
theorem C4_witness :
    ((invert_normal_params (n := 2) ⟨!![2,1;0,1], true, false⟩ none
        OutSpec.fresh OutSpecV.fresh true).res
      = Res.ok ⟨!![1/2,-1/2;-1/2,1], false, true⟩ none) ∧
    (⟨!![1/2,-1/2;-1/2,1], false, true⟩ : NArr 2).dataᵀ
      = (⟨!![1/2,-1/2;-1/2,1], false, true⟩ : NArr 2).data :=
  ⟨by with_unfolding_all decide,
    C4_result_symmetric ⟨!![2,1;0,1], true, false⟩ none
      OutSpec.fresh OutSpecV.fresh true ⟨!![1/2,-1/2;-1/2,1], false, true⟩
      none (by with_unfolding_all decide)⟩

/-- C5 counterexample: the claim "for every non-positive-definite matrix
(`cho_form` unset) the designated linear-algebra error is raised" fails at
the 1×1 matrix `[[-1]]`: a 1×1 NumPy array is both C- and F-contiguous, so
`flags.farray` is false even for the fresh F-ordered copy and for its
transpose, and the call raises `ValueError` from the layout check before
the factorization is ever reached. -/
theorem C5_counterexample :
    (¬ PosDefQ (!![(-1 : ℚ)] : Mat 1)) ∧
    ((invert_normal_params (n := 1) ⟨!![(-1 : ℚ)], true, true⟩ none
        OutSpec.fresh OutSpecV.fresh false).res = Res.err IErr.valueError) ∧
    ((invert_normal_params (n := 1) ⟨!![(-1 : ℚ)], true, true⟩ none
        OutSpec.fresh OutSpecV.fresh false).res ≠ Res.err IErr.linAlgError) :=
  ⟨fun h => absurd (h.2 ![1] (by with_unfolding_all decide))
      (by with_unfolding_all decide),
    by with_unfolding_all decide, by with_unfolding_all decide⟩

/-- C5 (amended): for every symmetric matrix of dimension at least 2 that
is not positive definite, the call with default output placement and
`cho_form` unset raises `LinAlgError` (the factorization refuses a
nonpositive pivot), the error propagates with no partial result, and the
caller's `A` and `b` buffers are untouched; 1×1 inputs instead fail the
layout check with `ValueError`. -/
theorem C5_amended {n : ℕ} (hn : 2 ≤ n) (A : NArr n) (b : Option (Fin n → ℚ))
    (hsym : A.dataᵀ = A.data) (hnpd : ¬ PosDefQ A.data) :
    invert_normal_params A b OutSpec.fresh OutSpecV.fresh false
      = ⟨Res.err IErr.linAlgError, some A.data, b⟩ := by
  have hd : (decide (n ≤ 1) : Bool) = false := by
    rw [decide_eq_false_iff_not]
    omega
  have hcf : cho_factor A.data = none := by
    unfold cho_factor
    rw [if_neg]
    intro hok
    exact hnpd (cholOk_posDefQ hsym hok)
  have hfa : (A.copyF).farray = true := by
    unfold NArr.farray NArr.copyF
    rw [hd]
    rfl
  have hlf : layoutFix (resolveA A OutSpec.fresh) = some (A.copyF, false) := by
    show layoutFix A.copyF = some (A.copyF, false)
    unfold layoutFix
    rw [if_pos hfa]
  have hcore : invertCore (A.copyF).data b false = CoreOut.factorFail :=
    invertCore_false_factorFail hcf
  simp only [invert_normal_params, hlf, hcore]
  rw [if_neg (fun hcon => OutSpec.noConfusion hcon)]

/-- Witness for the amended C5 at the symmetric indefinite matrix
`[[1,2],[2,1]]` (eigenvalues 3 and -1). -/
theorem C5_witness :
    (2 ≤ 2) ∧ ((!![1,2;2,1] : Mat 2)ᵀ = !![1,2;2,1]) ∧
    (¬ PosDefQ (!![1,2;2,1] : Mat 2)) ∧
    (invert_normal_params (n := 2) ⟨!![1,2;2,1], true, false⟩ (some ![3,7])
        OutSpec.fresh OutSpecV.fresh false
      = ⟨Res.err IErr.linAlgError, some !![1,2;2,1], some ![3,7]⟩) :=
  ⟨le_refl 2, by with_unfolding_all decide,
    fun h => absurd (h.2 ![1,-1] (by with_unfolding_all decide))
      (by with_unfolding_all decide),
    C5_amended (le_refl 2) ⟨!![1,2;2,1], true, false⟩ (some ![3,7])
      (by with_unfolding_all decide)
      (fun h => absurd (h.2 ![1,-1] (by with_unfolding_all decide))
        (by with_unfolding_all decide))⟩

theorem invertCore_cho_form {n : ℕ} {A U : Mat n} (hU : cho_factor A = some U)
    (b : Option (Fin n → ℚ)) : invertCore U b true = invertCore A b false := by
  unfold invertCore
  rw [hU]
  rfl

/-- C6: pre-factorizing `A` and calling with `cho_form=True` on the factor
(whatever the layout flags of the factor array) yields the same returned
`(out_A, out_b)` as calling on the raw `A` with `cho_form=False`, under
default output placement. -/
theorem C6_cho_form_equiv {n : ℕ} (A : NArr n) (b : Option (Fin n → ℚ))
    (U : Mat n) (cU fU : Bool) (hU : cho_factor A.data = some U) :
    (invert_normal_params ⟨U, cU, fU⟩ b OutSpec.fresh OutSpecV.fresh true).res
      = (invert_normal_params A b OutSpec.fresh OutSpecV.fresh false).res := by
  cases hd : (decide (n ≤ 1) : Bool) with
  | false =>
    have hfa : ∀ M : Mat n, (NArr.mk M (decide (n ≤ 1)) true).farray = true := by
      intro M
      unfold NArr.farray
      rw [hd]
      rfl
    have hlf1 : layoutFix (resolveA ⟨U, cU, fU⟩ OutSpec.fresh)
        = some (⟨U, decide (n ≤ 1), true⟩, false) := by
      show layoutFix (NArr.mk U (decide (n ≤ 1)) true) = _
      unfold layoutFix
      rw [if_pos (hfa U)]
    have hlf2 : layoutFix (resolveA A OutSpec.fresh)
        = some (⟨A.data, decide (n ≤ 1), true⟩, false) := by
      show layoutFix (NArr.mk A.data (decide (n ≤ 1)) true) = _
      unfold layoutFix
      rw [if_pos (hfa A.data)]
    simp only [invert_normal_params, hlf1, hlf2]
    rw [show invertCore (NArr.mk U (decide (n ≤ 1)) true).data b true
        = invertCore (NArr.mk A.data (decide (n ≤ 1)) true).data b false from
      invertCore_cho_form hU b]
    rw [show invertCore (NArr.mk A.data (decide (n ≤ 1)) true).data b false
        = invertCore A.data b false from rfl]
    rcases invertCore A.data b false with _ | s0 | ⟨F, s0⟩ <;> rfl
  | true =>
    have hfa : ∀ M : Mat n, (NArr.mk M (decide (n ≤ 1)) true).farray = false := by
      intro M
      unfold NArr.farray
      rw [hd]
      rfl
    have hfaT : ∀ M : Mat n,
        (NArr.mk M (decide (n ≤ 1)) true).T.farray = false := by
      intro M
      unfold NArr.farray NArr.T
      rw [hd]
      rfl
    have hlf1 : layoutFix (resolveA ⟨U, cU, fU⟩ OutSpec.fresh) = none := by
      show layoutFix (NArr.mk U (decide (n ≤ 1)) true) = none
      unfold layoutFix
      rw [hfa U, hfaT U]
      rfl
    have hlf2 : layoutFix (resolveA A OutSpec.fresh) = none := by
      show layoutFix (NArr.mk A.data (decide (n ≤ 1)) true) = none
      unfold layoutFix
      rw [hfa A.data, hfaT A.data]
      rfl
    simp only [invert_normal_params, hlf1, hlf2]

/-- Witness for C6: the factor `[[2,1],[0,1]]` of `[[4,2],[2,2]]`, passed
with C-order flags, gives the same result as the raw matrix. -/
theorem C6_witness :
    (cho_factor (!![4,2;2,2] : Mat 2) = some !![2,1;0,1]) ∧
    ((invert_normal_params (n := 2) ⟨!![2,1;0,1], true, false⟩ (some ![1,1])
        OutSpec.fresh OutSpecV.fresh true).res
      = (invert_normal_params (n := 2) ⟨!![4,2;2,2], true, false⟩
          (some ![1,1]) OutSpec.fresh OutSpecV.fresh false).res) :=
  ⟨by with_unfolding_all decide,
    C6_cho_form_equiv ⟨!![4,2;2,2], true, false⟩ (some ![1,1]) !![2,1;0,1]
      true false (by with_unfolding_all decide)⟩

theorem layoutFix_fresh {n : ℕ} (A : NArr n)
    (hd : (decide (n ≤ 1) : Bool) = false) :
    layoutFix (resolveA A OutSpec.fresh)
      = some (⟨A.data, decide (n ≤ 1), true⟩, false) := by
  have hfa : (NArr.mk A.data (decide (n ≤ 1)) true).farray = true := by
    unfold NArr.farray
    rw [hd]
    rfl
  show layoutFix (NArr.mk A.data (decide (n ≤ 1)) true) = _
  unfold layoutFix
  rw [if_pos hfa]

/-- C7: for a standard contiguous symmetric input of dimension at least 2,
requesting `'in_place'` for both outputs returns the same `(out_A, out_b)`
values as the default freshly-allocated outputs, and on success the
caller's input buffers are mutated to hold exactly the transformed
result. -/
theorem C7_in_place_equiv {n : ℕ} (A : NArr n) (b : Option (Fin n → ℚ))
    (hn : 2 ≤ n) (hx : A.c_contig ≠ A.f_contig) (hsym : A.dataᵀ = A.data) :
    ((invert_normal_params A b OutSpec.inPlace OutSpecV.inPlace false).res
      = (invert_normal_params A b OutSpec.fresh OutSpecV.fresh false).res) ∧
    (∀ (R : NArr n) (s : Option (Fin n → ℚ)),
      (invert_normal_params A b OutSpec.fresh OutSpecV.fresh false).res
          = Res.ok R s →
      (invert_normal_params A b OutSpec.inPlace OutSpecV.inPlace false).A_final
          = some R.data ∧
      (invert_normal_params A b OutSpec.inPlace OutSpecV.inPlace false).b_final
          = s) := by
  have hd : (decide (n ≤ 1) : Bool) = false := by
    rw [decide_eq_false_iff_not]
    omega
  have hlfF := layoutFix_fresh A hd
  cases hc : A.c_contig <;> cases hf : A.f_contig
  · rw [hc, hf] at hx
    exact absurd rfl hx
  · -- C-clear, F-set: the in-place working array is A itself
    have hfaA : A.farray = true := by
      unfold NArr.farray
      rw [hc, hf]
      rfl
    have hlfI : layoutFix (resolveA A OutSpec.inPlace) = some (A, false) := by
      show layoutFix A = _
      unfold layoutFix
      rw [if_pos hfaA]
    simp only [invert_normal_params, hlfI, hlfF]
    rw [show invertCore (NArr.mk A.data (decide (n ≤ 1)) true).data b false
        = invertCore A.data b false from rfl]
    rcases hc2 : invertCore A.data b false with _ | s0 | ⟨F, s0⟩
    · exact ⟨rfl, fun R s hRs => Res.noConfusion hRs⟩
    · exact ⟨rfl, fun R s hRs => Res.noConfusion hRs⟩
    · constructor
      · rw [hc, hf, hd]
      · intro R s hRs
        simp only [Res.ok.injEq] at hRs
        obtain ⟨hR, hs⟩ := hRs
        subst hR
        subst hs
        exact ⟨rfl, rfl⟩
  · -- C-set, F-clear: the in-place path works through the transposed view
    have hfaA : ¬ A.farray = true := by
      unfold NArr.farray
      rw [hc, hf]
      intro hcon
      exact Bool.noConfusion hcon
    have hfaT : A.T.farray = true := by
      unfold NArr.farray NArr.T
      rw [hc, hf]
      rfl
    have hlfI : layoutFix (resolveA A OutSpec.inPlace) = some (A.T, true) := by
      show layoutFix A = _
      unfold layoutFix
      rw [if_neg hfaA, if_pos hfaT]
    simp only [invert_normal_params, hlfI, hlfF]
    rw [show invertCore (A.T).data b false = invertCore A.dataᵀ b false from rfl,
      hsym]
    rw [show invertCore (NArr.mk A.data (decide (n ≤ 1)) true).data b false
        = invertCore A.data b false from rfl]
    rcases hc2 : invertCore A.data b false with _ | s0 | ⟨F, s0⟩
    · exact ⟨rfl, fun R s hRs => Res.noConfusion hRs⟩
    · exact ⟨rfl, fun R s hRs => Res.noConfusion hRs⟩
    · have hFsym : Fᵀ = F := by
        obtain ⟨M, hM⟩ := invertCore_ok_mirror hc2
        rw [hM]
        exact copy_triu_to_tril_symm M
      constructor
      · show Res.ok ⟨F, A.T.c_contig, A.T.f_contig⟩ s0 = _
        unfold NArr.T
        rw [hc, hf, hd]
      · intro R s hRs
        simp only [Res.ok.injEq] at hRs
        obtain ⟨hR, hs⟩ := hRs
        subst hR
        subst hs
        constructor
        · show some (if true = true then Fᵀ else F) = _
          rw [if_pos rfl, hFsym]
        · rfl
  · rw [hc, hf] at hx
    exact absurd rfl hx

/-- Witness for C7 at `A = [[4,2],[2,2]]` in C order with `b = [1,1]`. -/
theorem C7_witness :
    (2 ≤ 2) ∧ ((true : Bool) ≠ false) ∧
    ((!![4,2;2,2] : Mat 2)ᵀ = !![4,2;2,2]) ∧
    (((invert_normal_params (n := 2) ⟨!![4,2;2,2], true, false⟩ (some ![1,1])
        OutSpec.inPlace OutSpecV.inPlace false).res
      = (invert_normal_params (n := 2) ⟨!![4,2;2,2], true, false⟩
          (some ![1,1]) OutSpec.fresh OutSpecV.fresh false).res) ∧
    (∀ (R : NArr 2) (s : Option (Fin 2 → ℚ)),
      (invert_normal_params (n := 2) ⟨!![4,2;2,2], true, false⟩ (some ![1,1])
          OutSpec.fresh OutSpecV.fresh false).res = Res.ok R s →
      (invert_normal_params (n := 2) ⟨!![4,2;2,2], true, false⟩ (some ![1,1])
          OutSpec.inPlace OutSpecV.inPlace false).A_final = some R.data ∧
      (invert_normal_params (n := 2) ⟨!![4,2;2,2], true, false⟩ (some ![1,1])
          OutSpec.inPlace OutSpecV.inPlace false).b_final = s)) :=
  ⟨le_refl 2, by with_unfolding_all decide, by with_unfolding_all decide,
    C7_in_place_equiv ⟨!![4,2;2,2], true, false⟩ (some ![1,1]) (le_refl 2)
      (by with_unfolding_all decide) (by with_unfolding_all decide)⟩

/-- C8: a call returns the layout `ValueError` exactly when the resolved
working array has equal contiguity flags — that is, when neither it nor
its transposed view is strictly Fortran-contiguous; no other condition
produces the layout error. -/
theorem C8_layout_error {n : ℕ} (A : NArr n) (b : Option (Fin n → ℚ))
    (oA : OutSpec n) (oB : OutSpecV) (cf : Bool) :
    ((invert_normal_params A b oA oB cf).res = Res.err IErr.valueError)
      ↔ (resolveA A oA).c_contig = (resolveA A oA).f_contig := by
  rcases hl : layoutFix (resolveA A oA) with _ | ⟨w, tr⟩
  · constructor
    · intro _
      exact (layoutFix_none_iff _).mp hl
    · intro _
      simp only [invert_normal_params, hl]
  · constructor
    · intro hres
      exfalso
      rcases hcr : invertCore w.data b cf with _ | s0 | ⟨F, s0⟩ <;>
        simp only [invert_normal_params, hl, hcr] at hres
      · injection hres with he
        exact IErr.noConfusion he
      · injection hres with he
        exact IErr.noConfusion he
      · exact Res.noConfusion hres
    · intro heq
      exfalso
      have hnone := (layoutFix_none_iff (resolveA A oA)).mpr heq
      rw [hl] at hnone
      exact Option.noConfusion hnone

/-- C9: with any non-`'in_place'` placement for `A` and for `b` (in
particular the defaults), the caller's input arrays are left unchanged on
every path, success or error. -/
theorem C9_frame {n : ℕ} (A : NArr n) (b : Option (Fin n → ℚ))
    (oA : OutSpec n) (oB : OutSpecV) (cf : Bool)
    (hA : oA ≠ OutSpec.inPlace) (hB : oB ≠ OutSpecV.inPlace) :
    (invert_normal_params A b oA oB cf).A_final = some A.data ∧
    (invert_normal_params A b oA oB cf).b_final = b := by
  rcases hl : layoutFix (resolveA A oA) with _ | ⟨w, tr⟩
  · simp only [invert_normal_params, hl]
    constructor <;> trivial
  · rcases hcr : invertCore w.data b cf with _ | s0 | ⟨F, s0⟩ <;>
      simp only [invert_normal_params, hl, hcr, if_neg hA, if_neg hB] <;>
      constructor <;> trivial

/-- Witness for C9 with an explicit caller-supplied output buffer for `A`
and a fresh buffer for `b`. -/
theorem C9_witness :
    (OutSpec.buf (⟨!![0,0;0,0], false, true⟩ : NArr 2) ≠ OutSpec.inPlace) ∧
    (OutSpecV.fresh ≠ OutSpecV.inPlace) ∧
    ((invert_normal_params (n := 2) ⟨!![4,2;2,2], true, false⟩ (some ![1,1])
        (OutSpec.buf ⟨!![0,0;0,0], false, true⟩) OutSpecV.fresh false).A_final
      = some !![4,2;2,2] ∧
    (invert_normal_params (n := 2) ⟨!![4,2;2,2], true, false⟩ (some ![1,1])
        (OutSpec.buf ⟨!![0,0;0,0], false, true⟩) OutSpecV.fresh false).b_final
      = some ![1,1]) :=
  ⟨by with_unfolding_all decide, by with_unfolding_all decide,
    C9_frame ⟨!![4,2;2,2], true, false⟩ (some ![1,1])
      (OutSpec.buf ⟨!![0,0;0,0], false, true⟩) OutSpecV.fresh false
      (by with_unfolding_all decide) (by with_unfolding_all decide)⟩

namespace m2

/-- Prior configuration constants of `experiment/models/m2.py:45-50`. -/
def M0_A : ℚ := 0

def V0_A : ℚ := 1 ^ 2

def M0_B : ℚ := 0

def V0_B : ℚ := 1 ^ 2

/-- `np.append(V0_A, V0_B)`, the diagonal of the prior covariance. -/
def prior_v : Fin 2 → ℚ := ![V0_A, V0_B]

/-- `get_prior(J, D)` of `experiment/models/m2.py:134-145`: moment
parameters `S0 = np.diag(np.append(V0_A, V0_B)).T`, `m0`, and natural
parameters `Q0 = np.diag(1./np.append(V0_A, V0_B)).T`,
`r0 = np.append(M0_A/V0_A, M0_B/V0_B)`.  `J` and `D` are unused by the
source as well.  The `.T` keeps the arrays F-contiguous. -/
def get_prior (J D : ℕ) : NArr 2 × (Fin 2 → ℚ) × NArr 2 × (Fin 2 → ℚ) :=
  (⟨(Matrix.diagonal prior_v)ᵀ, decide (2 ≤ 1), true⟩,
   ![M0_A, M0_B],
   ⟨(Matrix.diagonal (fun i => 1 / prior_v i))ᵀ, decide (2 ≤ 1), true⟩,
   ![M0_A / V0_A, M0_B / V0_B])

end m2

namespace m4b

/-- Prior configuration constants of `experiment/models/m4b.py:53-64`. -/
def M0_MA : ℚ := 0

def V0_MA : ℚ := (3/2) ^ 2

def M0_SA : ℚ := 0

def V0_SA : ℚ := (3/2) ^ 2

def M0_MB : ℚ := 0

def V0_MB : ℚ := (3/2) ^ 2

def M0_SB : ℚ := 0

def V0_SB : ℚ := (3/2) ^ 2

/-- `self.dphi = 2*D+2` (`experiment/models/m4b.py:94`). -/
def dphi (D : ℕ) : ℕ := 2 * D + 2

/-- The diagonal of the prior covariance built at
`experiment/models/m4b.py:209-214`: `S0[0] = V0_MA`, `S0[1] = V0_SA`,
`S0[2:2+D] = V0_MB`, `S0[2+D:] = V0_SB`. -/
def prior_v (D : ℕ) : Fin (2 * D + 2) → ℚ := fun i =>
  if i.val = 0 then V0_MA
  else if i.val = 1 then V0_SA
  else if i.val < 2 + D then V0_MB
  else V0_SB

/-- The prior mean built at `experiment/models/m4b.py:215-219`. -/
def prior_m (D : ℕ) : Fin (2 * D + 2) → ℚ := fun i =>
  if i.val = 0 then M0_MA
  else if i.val = 1 then M0_SA
  else if i.val < 2 + D then M0_MB
  else M0_SB

/-- `model.get_prior` of `experiment/models/m4b.py:201-224`:
`S0 = np.diag(S0vec).T`, `m0`, `Q0 = np.diag(1/np.diag(S0)).T`,
`r0 = m0/np.diag(S0)`.  `J` plays no role, as in the source. -/
def get_prior (J D : ℕ) :
    NArr (2 * D + 2) × (Fin (2 * D + 2) → ℚ) ×
      NArr (2 * D + 2) × (Fin (2 * D + 2) → ℚ) :=
  (⟨(Matrix.diagonal (prior_v D))ᵀ, decide (2 * D + 2 ≤ 1), true⟩,
   prior_m D,
   ⟨(Matrix.diagonal (fun i => 1 / prior_v D i))ᵀ, decide (2 * D + 2 ≤ 1), true⟩,
   fun i => prior_m D i / prior_v D i)

end m4b

theorem chol_diagonal_offdiag {n : ℕ} (v : Fin n → ℚ) :
    ∀ (m : ℕ) (i j : Fin n), i.val = m → i ≠ j →
      chol (Matrix.diagonal v) i j = 0 := by
  intro m
  induction m using Nat.strong_induction_on with
  | _ m ih =>
    intro i j him hij
    rcases Nat.lt_trichotomy j.val i.val with hlt | heq | hgt
    · exact chol_lower_zero _ hlt
    · exact absurd (Fin.ext heq).symm hij
    · rw [chol_offdiag _ hgt]
      have hDij : Matrix.diagonal v i j = 0 := Matrix.diagonal_apply_ne v hij
      have hsum : (∑ k ∈ below n i.val,
          chol (Matrix.diagonal v) k i * chol (Matrix.diagonal v) k j) = 0 := by
        refine Finset.sum_eq_zero fun k hk => ?_
        have hklt := mem_below.mp hk
        have hkzero : chol (Matrix.diagonal v) k i = 0 :=
          ih k.val (by omega) k i rfl (fun he => by
            rw [he] at hklt
            exact lt_irrefl _ hklt)
        rw [hkzero, zero_mul]
      rw [hDij, hsum]
      simp

theorem cholPiv_diagonal {n : ℕ} (v : Fin n → ℚ) (i : Fin n) :
    cholPiv (Matrix.diagonal v) i = v i := by
  unfold cholPiv
  have hsum : (∑ k ∈ below n i.val,
      chol (Matrix.diagonal v) k i * chol (Matrix.diagonal v) k i) = 0 := by
    refine Finset.sum_eq_zero fun k hk => ?_
    have hklt := mem_below.mp hk
    rw [chol_diagonal_offdiag v k.val k i rfl (fun he => by
      rw [he] at hklt
      exact lt_irrefl _ hklt), zero_mul]
  rw [hsum, Matrix.diagonal_apply_eq]
  ring

theorem diagonal_inv_eq {n : ℕ} (v : Fin n → ℚ) (hv : ∀ i, v i ≠ 0) :
    (Matrix.diagonal v)⁻¹ = Matrix.diagonal (fun i => 1 / v i) := by
  apply Matrix.inv_eq_right_inv
  rw [Matrix.diagonal_mul_diagonal]
  have hone : (fun i => v i * (1 / v i)) = fun _ : Fin n => (1:ℚ) :=
    funext fun i => by
      rw [mul_one_div, div_self (hv i)]
  rw [hone, Matrix.diagonal_one]

/-- Evaluation of `invert_normal_params` on an F-ordered diagonal prior
with zero mean: the exact natural parameters come back. -/
theorem invert_diag_prior {n : ℕ} (hn : 2 ≤ n) (v : Fin n → ℚ)
    (hok : cholOk (Matrix.diagonal v)) (hv : ∀ i, v i ≠ 0) :
    invert_normal_params ⟨(Matrix.diagonal v)ᵀ, decide (n ≤ 1), true⟩
        (some (0 : Fin n → ℚ)) OutSpec.fresh OutSpecV.fresh false
      = ⟨Res.ok ⟨(Matrix.diagonal (fun i => 1 / v i))ᵀ, decide (n ≤ 1), true⟩
           (some (0 : Fin n → ℚ)),
         some ((Matrix.diagonal v)ᵀ), some (0 : Fin n → ℚ)⟩ := by
  have hd : (decide (n ≤ 1) : Bool) = false := by
    rw [decide_eq_false_iff_not]
    omega
  have hdataT : ((Matrix.diagonal v)ᵀ : Mat n) = Matrix.diagonal v :=
    Matrix.diagonal_transpose v
  have hsymA : ((Matrix.diagonal v)ᵀ : Mat n)ᵀ = (Matrix.diagonal v)ᵀ := by
    rw [hdataT, hdataT]
  have hokT : cholOk ((Matrix.diagonal v)ᵀ : Mat n) := by
    rw [hdataT]
    exact hok
  obtain ⟨F, s, hcore⟩ := invertCore_false_of_cholOk hokT (some (0 : Fin n → ℚ))
  obtain ⟨_, hF, hs, hm1, _, _⟩ := invertCore_ok_spec hsymA hcore
  have hFval : F = Matrix.diagonal (fun i => 1 / v i) := by
    rw [hF, hdataT, diagonal_inv_eq v hv]
  have hsval : s = some (0 : Fin n → ℚ) := by
    rw [hs]
    show some (((Matrix.diagonal v)ᵀ : Mat n)⁻¹.mulVec 0) = some 0
    rw [Matrix.mulVec_zero]
  have hlf := layoutFix_fresh
    (⟨(Matrix.diagonal v)ᵀ, decide (n ≤ 1), true⟩ : NArr n) hd
  simp only [invert_normal_params, hlf, hcore]
  rw [if_neg (fun hcon => OutSpec.noConfusion hcon),
    if_neg (fun hcon => OutSpecV.noConfusion hcon)]
  rw [hFval, hsval]
  simp only [Matrix.diagonal_transpose]

theorem m4b_prior_v_const (D : ℕ) (i : Fin (2 * D + 2)) :
    m4b.prior_v D i = (3/2) ^ 2 := by
  unfold m4b.prior_v m4b.V0_MA m4b.V0_SA m4b.V0_MB m4b.V0_SB
  split_ifs <;> rfl

theorem m4b_prior_m_zero (D : ℕ) (i : Fin (2 * D + 2)) :
    m4b.prior_m D i = 0 := by
  unfold m4b.prior_m m4b.M0_MA m4b.M0_SA m4b.M0_MB m4b.M0_SB
  split_ifs <;> rfl

theorem m4b_cholOk (D : ℕ) : cholOk (Matrix.diagonal (m4b.prior_v D)) := by
  intro i
  rw [cholPiv_diagonal, m4b_prior_v_const]
  constructor
  · norm_num
  · with_unfolding_all decide

/-- C10: in both experiment models the four arrays returned by `get_prior`
form a consistent moment/natural pair: `Q0` is the elementwise inverse of
the diagonal `S0` (so `Q0·S0 = I`), `r0 = Q0·m0`, and in exact arithmetic
`invert_normal_params` applied to `(S0, m0)` returns exactly `(Q0, r0)`
(leaving the inputs untouched), for every `J` and `D`. -/
theorem C10_prior_consistent :
    (∀ J D : ℕ,
      (m2.get_prior J D).2.2.1.data * (m2.get_prior J D).1.data = 1 ∧
      (m2.get_prior J D).2.2.2
        = (m2.get_prior J D).2.2.1.data.mulVec (m2.get_prior J D).2.1 ∧
      invert_normal_params (m2.get_prior J D).1 (some (m2.get_prior J D).2.1)
          OutSpec.fresh OutSpecV.fresh false
        = ⟨Res.ok (m2.get_prior J D).2.2.1 (some (m2.get_prior J D).2.2.2),
           some (m2.get_prior J D).1.data, some (m2.get_prior J D).2.1⟩) ∧
    (∀ J D : ℕ,
      (m4b.get_prior J D).2.2.1.data * (m4b.get_prior J D).1.data = 1 ∧
      (m4b.get_prior J D).2.2.2
        = (m4b.get_prior J D).2.2.1.data.mulVec (m4b.get_prior J D).2.1 ∧
      invert_normal_params (m4b.get_prior J D).1
          (some (m4b.get_prior J D).2.1) OutSpec.fresh OutSpecV.fresh false
        = ⟨Res.ok (m4b.get_prior J D).2.2.1 (some (m4b.get_prior J D).2.2.2),
           some (m4b.get_prior J D).1.data, some (m4b.get_prior J D).2.1⟩) := by
  constructor
  · intro J D
    simp only [m2.get_prior]
    with_unfolding_all decide
  · intro J D
    have hvne : ∀ i, m4b.prior_v D i ≠ 0 := fun i => by
      rw [m4b_prior_v_const]
      norm_num
    have hm0f : m4b.prior_m D = (0 : Fin (2 * D + 2) → ℚ) :=
      funext fun i => m4b_prior_m_zero D i
    have hr0f : (fun i => m4b.prior_m D i / m4b.prior_v D i)
        = (0 : Fin (2 * D + 2) → ℚ) :=
      funext fun i => by
        rw [m4b_prior_m_zero, zero_div]
        rfl
    simp only [m4b.get_prior]
    refine ⟨?_, ?_, ?_⟩
    · simp only [Matrix.diagonal_transpose, Matrix.diagonal_mul_diagonal]
      have hone : (fun i => 1 / m4b.prior_v D i * m4b.prior_v D i)
          = fun _ : Fin (2 * D + 2) => (1:ℚ) :=
        funext fun i => one_div_mul_cancel (hvne i)
      rw [hone, Matrix.diagonal_one]
    · rw [hr0f, hm0f, Matrix.mulVec_zero]
    · rw [hr0f, hm0f]
      exact invert_diag_prior (by omega) (m4b.prior_v D) (m4b_cholOk D) hvne
